import Mathlib

/-!
Verification of the TL schema-to-binding code generator
(`grammers-tl-gen/src/structs.rs`).

The generator consumes an in-memory definition model and emits Rust
source text.  We shallowly embed two layers:

* the *emitter* layer: what fragments/statements each `write_*` function
  in `structs.rs` emits, as abstract syntax (lists of statement tags);
* the *semantic* layer: the input/output behaviour of the serializer and
  deserializer code that `write_serializable` / `write_deserializable`
  emit, as executable Lean functions over a byte list, parametrised by a
  codec for the payload types (whose serialization primitives live in an
  external crate).
-/

namespace TlGen

/-- A (result or field) type from the definition model: we keep the name
and whether it is a reference to a generic parameter, the two components
`structs.rs` inspects (`ty.name`, `ty.generic_ref`). -/
structure Ty where
  name : String
  generic_ref : Bool
deriving DecidableEq

/-- A reference to a flags parameter: its name and the bit index. -/
structure Flag where
  name : String
  index : Nat
deriving DecidableEq

/-- The kind of a parameter: a hidden 32-bit `Flags` word, or a normal
field whose presence may be gated by a flag reference. -/
inductive ParameterType where
  | flags
  | normal (ty : Ty) (flag : Option Flag)
deriving DecidableEq

/-- One parameter of a definition. -/
structure Parameter where
  name : String
  ty : ParameterType
deriving DecidableEq

/-- Definition category: concrete type variant, or remote function. -/
inductive Category where
  | types
  | functions
deriving DecidableEq

/-- One schema definition: name, numeric constructor id, namespace key,
parameters in wire order, category and result type. -/
structure Definition where
  ns : String
  name : String
  id : Nat
  params : List Parameter
  category : Category
  ty : Ty
deriving DecidableEq

/-- The configuration options of the generator (`Config` in the source):
we keep the ones `structs.rs` branches on. -/
structure Config where
  impl_debug : Bool
  impl_serde : Bool
  deserializable_functions : Bool
  impl_from_enum : Bool
deriving DecidableEq

/-- Whole-set metadata handed to the emitters.  The analysis itself is an
out-of-scope collaborator; the emitters only read these two facts. -/
structure Metadata where
  defs_with_type : Ty → List Definition
  is_recursive_def : Definition → Bool

/-- Modelled from the spec: the metadata analyzer's `is_unused_flag`
(the analyzer source is not part of the excerpt) — true when no normal
parameter of the definition references this flags field. -/
def is_unused_flag (d : Definition) (p : Parameter) : Bool :=
  !(d.params.any fun q =>
    match q.ty with
    | ParameterType.normal _ (some fl) => fl.name == p.name
    | _ => false)

/-! ## Byte-level primitives

Modelled from the spec: the serialization primitives the generated code
delegates to live in an external crate; the spec fixes a flags word (and
a `u32` constructor id) to be exactly 4 bytes, little-endian. -/

/-- 4-byte little-endian encoding of the low 32 bits of `n`. -/
def u32le (n : Nat) : List Nat :=
  [n % 256, n / 256 % 256, n / 65536 % 256, n / 16777216 % 256]

/-- Read a 4-byte little-endian word off the front of the buffer. -/
def readU32 : List Nat → Option (Nat × List Nat)
  | b0 :: b1 :: b2 :: b3 :: rest =>
      some (b0 + 256 * b1 + 65536 * b2 + 16777216 * b3, rest)
  | _ => none

/-! ## Values of generated structures

A generated structure holds, per normal parameter: a plain boolean for
the zero-width `"true"` type, an `Option` payload for a flag-gated
field, and a bare payload otherwise.  `V` abstracts the payload values
of all non-`"true"` field types; a `Codec` gives their serialization,
standing for the per-type `serialize`/`deserialize` impls the generated
code calls into. -/

inductive FieldVal (V : Type) where
  | tbool (b : Bool)
  | opt (o : Option V)
  | req (v : V)
deriving DecidableEq

/-- Per-type payload codec: serialization and deserialization of one
value of the named type. -/
structure Codec (V : Type) where
  ser : String → V → List Nat
  des : String → List Nat → Option (V × List Nat)

/-- A codec is lawful when deserializing right after serializing gives
the value back and consumes exactly the serialized bytes. -/
def Codec.RoundTrip {V : Type} (c : Codec V) : Prop :=
  ∀ (t : String) (v : V) (rest : List Nat),
    c.des t (c.ser t v ++ rest) = some (v, rest)

/-- A field assignment: the stored value of each named field. -/
def Vals (V : Type) := String → FieldVal V

/-- The assignment is well typed at a parameter when the stored value's
shape matches the parameter's kind. -/
def wellTypedP {V : Type} (vals : Vals V) (p : Parameter) : Bool :=
  match p.ty with
  | ParameterType.flags => true
  | ParameterType.normal ty flag =>
    if ty.name == "true" then
      match vals p.name with
      | FieldVal.tbool _ => true
      | _ => false
    else
      match flag with
      | some _ =>
        match vals p.name with
        | FieldVal.opt _ => true
        | _ => false
      | none =>
        match vals p.name with
        | FieldVal.req _ => true
        | _ => false

/-! ## Semantics of the emitted serializer (`write_serializable`) -/

/-- Presence of a field, as tested by the emitted flags expression:
`self.name` itself for `"true"`-typed fields, `self.name.is_some()`
otherwise (structs.rs lines 199–205). -/
def isPresentP {V : Type} (vals : Vals V) (p : Parameter) : Bool :=
  match p.ty with
  | ParameterType.flags => false
  | ParameterType.normal ty _ =>
    if ty.name == "true" then
      match vals p.name with
      | FieldVal.tbool b => b
      | _ => false
    else
      match vals p.name with
      | FieldVal.opt o => o.isSome
      | _ => false

/-- One OR-term of the emitted flags expression: `1 << index` when the
parameter is gated by the flags field named `flagName` and present,
`0` otherwise. -/
def flagContribution {V : Type} (vals : Vals V) (flagName : String)
    (p : Parameter) : Nat :=
  match p.ty with
  | ParameterType.normal _ (some fl) =>
    if fl.name == flagName then
      (if isPresentP vals p then 2 ^ fl.index else 0)
    else 0
  | _ => 0

/-- The synthesized flags word: `0u32 | t₁ | t₂ | …` over every normal
parameter of the definition whose flag reference names this flags field
(structs.rs lines 184–211). -/
def flagsWord {V : Type} (d : Definition) (flagName : String)
    (vals : Vals V) : Nat :=
  d.params.foldl (fun acc p => acc ||| flagContribution vals flagName p) 0

/-- The bytes the emitted serializer writes for one parameter
(structs.rs lines 181–236): the synthesized word for a flags parameter,
nothing for a `"true"`-typed field, the payload if present for a gated
field, and the payload unconditionally for an ungated field. -/
def serializeParam {V : Type} (c : Codec V) (d : Definition) (vals : Vals V)
    (p : Parameter) : List Nat :=
  match p.ty with
  | ParameterType.flags => u32le (flagsWord d p.name vals)
  | ParameterType.normal ty flag =>
    if ty.name == "true" then []
    else
      match flag with
      | some _ =>
        match vals p.name with
        | FieldVal.opt (some v) => c.ser ty.name v
        | _ => []
      | none =>
        match vals p.name with
        | FieldVal.req v => c.ser ty.name v
        | _ => []

/-- The full output of the emitted `serialize`: functions first write
their own 4-byte constructor id, types do not; then every parameter in
order (structs.rs lines 170–236). -/
def serializeDef {V : Type} (c : Codec V) (d : Definition) (vals : Vals V) :
    List Nat :=
  (match d.category with
   | Category.functions => u32le d.id
   | Category.types => []) ++
  d.params.flatMap (serializeParam c d vals)

/-! ## Semantics of the emitted deserializer (`write_deserializable`) -/

/-- The value of the local flags variable named `n`: the emitted code
refers to the `let`-bound word by name; absent names (imposs. for
well-formed definitions) read as 0. -/
def lookupFlag (env : List (String × Nat)) (n : String) : Nat :=
  (env.lookup n).getD 0

/-- Run the emitted deserializer statements for a parameter list
(structs.rs lines 274–326), threading the buffer and the environment of
already-read flags words, and collecting the named field values of the
normal parameters in order (the final struct literal, lines 328–344,
lists exactly those).  A flags parameter reads a 4-byte word; a
`"true"`-typed parameter tests a bit of its governing word and consumes
nothing; a gated parameter reads a payload only when its bit is set; an
ungated parameter always reads a payload. -/
def desParams {V : Type} (c : Codec V) :
    List Parameter → List (String × Nat) → List Nat →
    Option (List (String × FieldVal V) × List Nat)
  | [], _, buf => some ([], buf)
  | p :: ps, env, buf =>
    match p.ty with
    | ParameterType.flags =>
      match readU32 buf with
      | none => none
      | some (w, buf') => desParams c ps ((p.name, w) :: env) buf'
    | ParameterType.normal ty flag =>
      if ty.name == "true" then
        match flag with
        | none => none
        | some fl =>
          (desParams c ps env buf).map fun r =>
            ((p.name,
              FieldVal.tbool (lookupFlag env fl.name &&& 2 ^ fl.index != 0))
              :: r.1, r.2)
      else
        match flag with
        | some fl =>
          if lookupFlag env fl.name &&& 2 ^ fl.index != 0 then
            match c.des ty.name buf with
            | none => none
            | some (v, buf') =>
              (desParams c ps env buf').map fun r =>
                ((p.name, FieldVal.opt (some v)) :: r.1, r.2)
          else
            (desParams c ps env buf).map fun r =>
              ((p.name, FieldVal.opt none) :: r.1, r.2)
        | none =>
          match c.des ty.name buf with
          | none => none
          | some (v, buf') =>
            (desParams c ps env buf').map fun r =>
              ((p.name, FieldVal.req v) :: r.1, r.2)

/-- The emitted `deserialize` for a whole definition: read every
parameter in order starting from an empty flags environment (it never
reads a constructor id in-body). -/
def deserializeDef {V : Type} (c : Codec V) (d : Definition)
    (buf : List Nat) : Option (List (String × FieldVal V) × List Nat) :=
  desParams c d.params [] buf

/-- The struct value the deserializer is expected to rebuild: the named
stored value of every normal parameter, in declaration order. -/
def fieldsOf {V : Type} (ps : List Parameter) (vals : Vals V) :
    List (String × FieldVal V) :=
  ps.filterMap fun p =>
    match p.ty with
    | ParameterType.flags => none
    | ParameterType.normal _ _ => some (p.name, vals p.name)

/-! ## Emitter layer: the shape of the emitted fragments -/

/-- Field names of the emitted structure (`write_struct`, lines 83–101):
one field per normal parameter — including `"true"`-typed ones — and
none for flags parameters. -/
def write_struct_fields (d : Definition) : List String :=
  d.params.filterMap fun p =>
    match p.ty with
    | ParameterType.flags => none
    | ParameterType.normal _ _ => some p.name

/-- Abstract serializer statements emitted by `write_serializable`. -/
inductive SerStmt where
  | writeId
  | writeFlags (flagName : String)
  | writeGated (fieldName : String)
  | writeRequired (fieldName : String)
deriving DecidableEq

/-- The statement (if any) `write_serializable` emits for one parameter:
nothing at all for a `"true"`-typed field. -/
def serStmtOfParam (p : Parameter) : Option SerStmt :=
  match p.ty with
  | ParameterType.flags => some (SerStmt.writeFlags p.name)
  | ParameterType.normal ty flag =>
    if ty.name == "true" then none
    else
      match flag with
      | some _ => some (SerStmt.writeGated p.name)
      | none => some (SerStmt.writeRequired p.name)

/-- The statements of the emitted `serialize` body: the constructor id
first for functions only, then one statement per non-`"true"` parameter
in order. -/
def write_serializable_stmts (d : Definition) : List SerStmt :=
  (match d.category with
   | Category.types => []
   | Category.functions => [SerStmt.writeId]) ++
  d.params.filterMap serStmtOfParam

/-- Abstract deserializer statements emitted by `write_deserializable`. -/
inductive DesStmt where
  | readFlags (bind : String) (discarded : Bool)
  | trueFromFlag (bind : String) (flagName : String) (index : Nat)
  | readGated (bind : String) (flagName : String) (index : Nat) (ty : Ty)
  | readRequired (bind : String) (ty : Ty)
deriving DecidableEq

/-- The statement `write_deserializable` emits for one parameter; `none`
models the generator panicking on its `expect` when a `"true"`-typed
parameter carries no flag reference (structs.rs lines 289–293).  An
unused flags word is bound to a discarded name. -/
def desStmtOfParam (d : Definition) (p : Parameter) : Option DesStmt :=
  match p.ty with
  | ParameterType.flags => some (DesStmt.readFlags p.name (is_unused_flag d p))
  | ParameterType.normal ty flag =>
    if ty.name == "true" then
      match flag with
      | none => none
      | some fl => some (DesStmt.trueFromFlag p.name fl.name fl.index)
    else
      match flag with
      | some fl => some (DesStmt.readGated p.name fl.name fl.index ty)
      | none => some (DesStmt.readRequired p.name ty)

/-- Emit the statement of every parameter in order, `none` as soon as
one parameter makes the generator panic. -/
def desStmtsAux (d : Definition) : List Parameter → Option (List DesStmt)
  | [] => some []
  | p :: ps =>
    match desStmtOfParam d p, desStmtsAux d ps with
    | some s, some rest => some (s :: rest)
    | _, _ => none

/-- The statements of the emitted `deserialize` body; `none` when the
generator panics while emitting them. -/
def write_deserializable_stmts (d : Definition) : Option (List DesStmt) :=
  desStmtsAux d d.params

/-- The `impl RemoteCall` fragment (`write_rpc`, lines 357–380): the
associated `Return` is the definition's `ty`, composed through the
generic parameter's own `::Return` when `ty` is a generic reference. -/
structure RpcImpl where
  returnTy : Ty
  composedReturn : Bool
deriving DecidableEq

def write_rpc (d : Definition) : RpcImpl :=
  { returnTy := d.ty, composedReturn := d.ty.generic_ref }

/-- The `impl From`/`impl TryFrom` fragment (`write_impl_from`, lines
392–450). -/
structure FromImpl where
  infallible : Bool
  errorIsUnit : Bool
  matchedVariant : String
  unitConstruction : Bool
  derefPayload : Bool
  otherVariantsErrUnit : Bool
deriving DecidableEq

def write_impl_from (m : Metadata) (d : Definition) : FromImpl :=
  let infallible := (m.defs_with_type d.ty).length == 1
  { infallible := infallible
    errorIsUnit := !infallible
    matchedVariant := d.name
    unitConstruction := d.params.isEmpty
    derefPayload := m.is_recursive_def d
    otherVariantsErrUnit := !infallible }

/-- The fragments `write_definition` (lines 453–477) emits for one
definition. -/
inductive Part where
  | structPart
  | identifiable
  | serializable
  | deserializable
  | rpc
  | implFrom
deriving DecidableEq

def write_definition_parts (cfg : Config) (d : Definition) : List Part :=
  [Part.structPart, Part.identifiable, Part.serializable] ++
  (if d.category == Category.types || cfg.deserializable_functions
      || d.name == "sendMessage"
   then [Part.deserializable] else []) ++
  (if d.category == Category.functions then [Part.rpc] else []) ++
  (if d.category == Category.types && cfg.impl_from_enum
   then [Part.implFrom] else [])

/-! ## Namespace grouping and assembly (`write_category_mod`) -/

/-- Modelled from the spec: `grouper::group_by_ns` (its source is not
part of the excerpt) partitions the definitions of the requested
category by namespace key, keeping input order within a group. -/
def group_by_ns (defs : List Definition) (cat : Category) (k : String) :
    List Definition :=
  defs.filter fun d => d.category == cat && d.ns == k

/-- The namespace keys in the order `write_category_mod` visits them:
collected, then sorted lexicographically (lines 487–490). -/
def sortedKeys (defs : List Definition) (cat : Category) : List String :=
  List.insertionSort (· ≤ ·)
    (((defs.filter fun d => d.category == cat).map Definition.ns).dedup)

/-- The assembled module: for each namespace key in sorted order, the
definitions written for it — a type-category definition is skipped when
the injected ignorable predicate holds for its `ty`, functions are never
filtered (lines 506–509). -/
def write_category_mod (ignorable : Ty → Bool) (cat : Category)
    (defs : List Definition) : List (String × List Definition) :=
  (sortedKeys defs cat).map fun k =>
    (k, (group_by_ns defs cat k).filter fun d =>
          d.category == Category.functions || !ignorable d.ty)

/-! ## Well-formedness of a definition and value reconstruction -/

/-- The flag reference of a parameter, if any. -/
def flagRefOf (p : Parameter) : Option (String × Nat) :=
  match p.ty with
  | ParameterType.normal _ (some fl) => some (fl.name, fl.index)
  | _ => none

/-- Every flag reference names a flags parameter declared earlier in the
list (the emitted deserializer reads flags words into local variables
and refers to them by name, so a reference must come after its word). -/
def flagsDeclared (declared : List String) : List Parameter → Bool
  | [] => true
  | p :: ps =>
    match p.ty with
    | ParameterType.flags => flagsDeclared (p.name :: declared) ps
    | ParameterType.normal _ (some fl) =>
      declared.contains fl.name && flagsDeclared declared ps
    | ParameterType.normal _ none => flagsDeclared declared ps

/-- The input invariant on the zero-width type: a `"true"`-typed
parameter always carries a flag reference. -/
def trueHasFlag (p : Parameter) : Bool :=
  match p.ty with
  | ParameterType.normal ty none => !(ty.name == "true")
  | _ => true

/-- Rebuild a field assignment from the deserializer's output: look a
field up by name (names not present fall back to a junk value). -/
def valsOfFields {V : Type} (fields : List (String × FieldVal V)) : Vals V :=
  fun n => (fields.lookup n).getD (FieldVal.tbool false)

/-- Whether a parameter is a normal (stored) one. -/
def isNormalP (p : Parameter) : Bool :=
  match p.ty with
  | ParameterType.flags => false
  | ParameterType.normal _ _ => true

/-! ## Concrete example inputs (used by the witnesses) -/

/-- A payload codec over booleans: one byte per value. -/
def boolCodec : Codec Bool where
  ser := fun _ b => [if b then 1 else 0]
  des := fun _ buf =>
    match buf with
    | [] => none
    | b :: rest => some (b != 0, rest)

/-- Example definition for the flag-bit claims: one flags word and two
gated fields bound to bits 0 and 2. -/
def exC1Def : Definition where
  ns := ""
  name := "exampleFlags"
  id := 100
  category := Category.types
  ty := { name := "ExampleFlags", generic_ref := false }
  params :=
    [{ name := "flags", ty := ParameterType.flags },
     { name := "a",
       ty := ParameterType.normal { name := "int", generic_ref := false }
         (some { name := "flags", index := 0 }) },
     { name := "b",
       ty := ParameterType.normal { name := "int", generic_ref := false }
         (some { name := "flags", index := 2 }) }]

/-- First field present, second absent. -/
def exC1Vals1 : Vals Bool := fun n =>
  if n = "a" then FieldVal.opt (some true) else FieldVal.opt none

/-- Both fields present. -/
def exC1Vals2 : Vals Bool := fun n =>
  if n = "a" then FieldVal.opt (some true)
  else if n = "b" then FieldVal.opt (some false)
  else FieldVal.opt none

/-- Example definition with a `"true"`-typed field gated on bit 1. -/
def exC2Def : Definition where
  ns := ""
  name := "exampleTrue"
  id := 101
  category := Category.types
  ty := { name := "ExampleTrue", generic_ref := false }
  params :=
    [{ name := "flags", ty := ParameterType.flags },
     { name := "silent",
       ty := ParameterType.normal { name := "true", generic_ref := false }
         (some { name := "flags", index := 1 }) }]

/-- The `"true"`-typed parameter of `exC2Def`. -/
def exC2Param : Parameter where
  name := "silent"
  ty := ParameterType.normal { name := "true", generic_ref := false }
    (some { name := "flags", index := 1 })

/-- Example function-category definition. -/
def exFnDef : Definition where
  ns := ""
  name := "exampleCall"
  id := 102
  category := Category.functions
  ty := { name := "Bool", generic_ref := false }
  params :=
    [{ name := "x",
       ty := ParameterType.normal { name := "int", generic_ref := false } none }]

/-- Example type-category definition with an unused flags word. -/
def exC4Def : Definition where
  ns := ""
  name := "exampleUnused"
  id := 103
  category := Category.types
  ty := { name := "ExampleUnused", generic_ref := false }
  params :=
    [{ name := "flags", ty := ParameterType.flags },
     { name := "x",
       ty := ParameterType.normal { name := "int", generic_ref := false } none }]

/-- The flags parameter of `exC4Def`. -/
def exC4Param : Parameter where
  name := "flags"
  ty := ParameterType.flags

/-- The special-cased definition name from `write_definition`. -/
def sendMessageDef : Definition where
  ns := "messages"
  name := "sendMessage"
  id := 104
  category := Category.functions
  ty := { name := "Updates", generic_ref := false }
  params := []

/-- Metadata under which `exC1Def` is the only inhabitant of its type
and counts as recursive. -/
def exMeta1 : Metadata where
  defs_with_type := fun _ => [exC1Def]
  is_recursive_def := fun _ => true

/-- Metadata under which the abstract type has two inhabitants. -/
def exMeta2 : Metadata where
  defs_with_type := fun _ => [exC1Def, exC2Def]
  is_recursive_def := fun _ => false

/-- A definition violating the input invariant: a `"true"`-typed
parameter with no flag reference. -/
def exBadDef : Definition where
  ns := ""
  name := "exampleBad"
  id := 105
  category := Category.types
  ty := { name := "ExampleBad", generic_ref := false }
  params :=
    [{ name := "oops",
       ty := ParameterType.normal { name := "true", generic_ref := false } none }]

/-- The offending parameter of `exBadDef`. -/
def exBadParam : Parameter where
  name := "oops"
  ty := ParameterType.normal { name := "true", generic_ref := false } none

/-- Assembler example: a definition in namespace `zeta`. -/
def exDzOne : Definition where
  ns := "zeta"
  name := "zOne"
  id := 1
  category := Category.types
  ty := { name := "ZOne", generic_ref := false }
  params := []

/-- Assembler example: a definition in namespace `alpha`. -/
def exDaOne : Definition where
  ns := "alpha"
  name := "aOne"
  id := 2
  category := Category.types
  ty := { name := "AOne", generic_ref := false }
  params := []

/-- Assembler example: an ignorable definition in namespace `alpha`. -/
def exDaIgn : Definition where
  ns := "alpha"
  name := "aIgn"
  id := 3
  category := Category.types
  ty := { name := "Ignored", generic_ref := false }
  params := []

/-- Two-namespace definition list for the assembler claim. -/
def exC8Defs : List Definition := [exDzOne, exDaOne, exDaIgn]

/-- The ignorable predicate used in the assembler example. -/
def exC8Ign : Ty → Bool := fun t => t.name == "Ignored"

/-- Round-trip example: flags word, a gated payload on bit 0, a
`"true"`-typed field on bit 1, and a required payload. -/
def exC9Def : Definition where
  ns := ""
  name := "exampleRound"
  id := 106
  category := Category.types
  ty := { name := "ExampleRound", generic_ref := false }
  params :=
    [{ name := "flags", ty := ParameterType.flags },
     { name := "photo",
       ty := ParameterType.normal { name := "bytes", generic_ref := false }
         (some { name := "flags", index := 0 }) },
     { name := "silent",
       ty := ParameterType.normal { name := "true", generic_ref := false }
         (some { name := "flags", index := 1 }) },
     { name := "message",
       ty := ParameterType.normal { name := "string", generic_ref := false } none }]

/-- A field assignment for `exC9Def`: gated payload present, `"true"`
flag set, required payload `false`. -/
def exC9Vals : Vals Bool := fun n =>
  if n = "photo" then FieldVal.opt (some true)
  else if n = "silent" then FieldVal.tbool true
  else if n = "message" then FieldVal.req false
  else FieldVal.tbool false

/-! ## Byte-primitive and codec lemmas -/

theorem u32le_length (n : Nat) : (u32le n).length = 4 := rfl

theorem readU32_u32le (n : Nat) (rest : List Nat) :
    readU32 (u32le n ++ rest) = some (n % 2 ^ 32, rest) := by
  simp only [u32le, readU32, List.cons_append, List.nil_append,
    Option.some.injEq, Prod.mk.injEq, and_true]
  omega

theorem boolCodec_roundTrip : boolCodec.RoundTrip := by
  intro t v rest
  cases v <;> rfl

/-! ## Lemmas about the synthesized flags word -/

theorem testBit_flagContribution {V : Type} (vals : Vals V) (f : String)
    (p : Parameter) (i : Nat) :
    (flagContribution vals f p).testBit i =
      ((flagRefOf p == some (f, i)) && isPresentP vals p) := by
  unfold flagContribution flagRefOf
  match p, hty : p.ty with
  | p, ParameterType.flags => simp [hty]
  | p, ParameterType.normal ty none => simp [hty]
  | p, ParameterType.normal ty (some fl) =>
    simp only [hty]
    by_cases hname : fl.name = f
    · subst hname
      simp only [beq_self_eq_true, if_pos rfl, Option.some.injEq, Prod.mk.injEq]
      by_cases hp : isPresentP vals p
      · simp only [hp, if_pos rfl, Bool.and_true]
        by_cases hi : fl.index = i
        · subst hi; simp [Nat.testBit_two_pow]
        · simp [Nat.testBit_two_pow_of_ne hi, hi]
      · simp only [Bool.not_eq_true] at hp
        simp [hp]
    · simp [hname, beq_eq_false_iff_ne.mpr hname]

theorem testBit_foldl_or (g : Parameter → Nat) (i : Nat) :
    ∀ (ps : List Parameter) (a : Nat),
      (ps.foldl (fun acc p => acc ||| g p) a).testBit i =
        (a.testBit i || ps.any fun p => (g p).testBit i)
  | [], a => by simp
  | p :: ps, a => by
    simp only [List.foldl_cons, List.any_cons, testBit_foldl_or g i ps,
      Nat.testBit_or, Bool.or_assoc]

theorem testBit_flagsWord {V : Type} (d : Definition) (f : String)
    (vals : Vals V) (i : Nat) :
    (flagsWord d f vals).testBit i =
      d.params.any fun q => (flagRefOf q == some (f, i)) && isPresentP vals q := by
  unfold flagsWord
  rw [testBit_foldl_or]
  simp only [Nat.zero_testBit, Bool.false_or]
  congr 1
  funext q
  exact testBit_flagContribution vals f q i

theorem foldl_or_lt (g : Parameter → Nat) (n : Nat) :
    ∀ (ps : List Parameter) (a : Nat), (∀ p ∈ ps, g p < 2 ^ n) → a < 2 ^ n →
      ps.foldl (fun acc p => acc ||| g p) a < 2 ^ n
  | [], a, _, ha => ha
  | p :: ps, a, h, ha => by
    refine foldl_or_lt g n ps _ (fun q hq => h q (List.mem_cons_of_mem _ hq)) ?_
    exact Nat.or_lt_two_pow ha (h p (List.mem_cons_self _ _))

theorem flagsWord_lt {V : Type} (d : Definition) (f : String) (vals : Vals V)
    (h : ∀ r ∈ d.params.filterMap flagRefOf, r.2 < 32) :
    flagsWord d f vals < 2 ^ 32 := by
  refine foldl_or_lt _ 32 d.params 0 (fun p hp => ?_) (by norm_num)
  obtain ⟨pname, pty⟩ := p
  cases pty with
  | flags => simp only [flagContribution]; positivity
  | normal ty flag =>
    cases flag with
    | none => simp only [flagContribution]; positivity
    | some fl =>
      have hidx : fl.index < 32 := by
        have hmem : (fl.name, fl.index) ∈ d.params.filterMap flagRefOf := by
          refine List.mem_filterMap.mpr ⟨⟨pname, ParameterType.normal ty (some fl)⟩, hp, rfl⟩
        exact h _ hmem
      simp only [flagContribution]
      by_cases hname : fl.name == f
      · simp only [hname, if_pos rfl]
        by_cases hp' : isPresentP vals ⟨pname, ParameterType.normal ty (some fl)⟩
        · simpa [hp'] using Nat.pow_lt_pow_right (by norm_num) hidx
        · simp only [Bool.not_eq_true] at hp'
          simp only [hp', if_neg Bool.false_ne_true]
          positivity
      · simp only [Bool.not_eq_true] at hname
        simp only [hname, Bool.false_eq_true, if_neg]
        positivity

theorem foldl_or_zero (g : Parameter → Nat) :
    ∀ ps : List Parameter, (∀ q ∈ ps, g q = 0) →
      ps.foldl (fun acc p => acc ||| g p) 0 = 0
  | [], _ => rfl
  | p :: ps, h => by
    simp only [List.foldl_cons, h p (List.mem_cons_self _ _), Nat.zero_or]
    exact foldl_or_zero g ps fun q hq => h q (List.mem_cons_of_mem _ hq)

theorem flagsWord_unused {V : Type} (d : Definition) (p : Parameter)
    (vals : Vals V) (h : is_unused_flag d p = true) :
    flagsWord d p.name vals = 0 := by
  unfold is_unused_flag at h
  rw [Bool.not_eq_true', List.any_eq_false] at h
  refine foldl_or_zero _ d.params fun q hq => ?_
  have hq' := h q hq
  obtain ⟨qname, qty⟩ := q
  cases qty with
  | flags => simp [flagContribution]
  | normal ty flag =>
    cases flag with
    | none => simp [flagContribution]
    | some fl =>
      simp only at hq'
      rw [Bool.not_eq_true] at hq'
      simp [flagContribution, hq']

theorem and_two_pow_ne_zero (n i : Nat) :
    (n &&& 2 ^ i != 0) = n.testBit i := by
  rw [Nat.and_two_pow]
  cases h : n.testBit i <;> simp [h]

theorem nodup_filterMap_inj {α β : Type} [DecidableEq β] (f : α → Option β) :
    ∀ l : List α, (l.filterMap f).Nodup →
      ∀ a ∈ l, ∀ b ∈ l, ∀ r, f a = some r → f b = some r → a = b
  | [], _, a, ha, _, _, _, _, _ => absurd ha (List.not_mem_nil a)
  | x :: l, h, a, ha, b, hb, r, hfa, hfb => by
    rcases List.mem_cons.mp ha with rfl | ha' <;>
      rcases List.mem_cons.mp hb with rfl | hb'
    · rfl
    · exfalso
      rw [List.filterMap_cons, hfa] at h
      exact (List.nodup_cons.mp h).1
        (List.mem_filterMap.mpr ⟨b, hb', hfb⟩)
    · exfalso
      rw [List.filterMap_cons, hfb] at h
      exact (List.nodup_cons.mp h).1
        (List.mem_filterMap.mpr ⟨a, ha', hfa⟩)
    · refine nodup_filterMap_inj f l ?_ a ha' b hb' r hfa hfb
      rw [List.filterMap_cons] at h
      cases hx : f x with
      | none => rwa [hx] at h
      | some y => rw [hx] at h; exact (List.nodup_cons.mp h).2

theorem flagsWord_testBit_present {V : Type} (d : Definition) (vals : Vals V)
    (p : Parameter) (ty : Ty) (fl : Flag)
    (hp : p ∈ d.params) (hty : p.ty = ParameterType.normal ty (some fl))
    (huniq : (d.params.filterMap flagRefOf).Nodup) :
    (flagsWord d fl.name vals).testBit fl.index = isPresentP vals p := by
  rw [testBit_flagsWord]
  have hrefp : flagRefOf p = some (fl.name, fl.index) := by
    unfold flagRefOf
    rw [hty]
  cases hpres : isPresentP vals p with
  | true =>
    refine List.any_eq_true.mpr ⟨p, hp, ?_⟩
    rw [hrefp, hpres]
    simp
  | false =>
    rw [List.any_eq_false]
    intro q hq
    rw [Bool.not_eq_true, Bool.and_eq_false_iff]
    by_cases hrq : flagRefOf q = some (fl.name, fl.index)
    · right
      have : q = p := nodup_filterMap_inj flagRefOf d.params huniq
        q hq p hp (fl.name, fl.index) hrq hrefp
      rw [this, hpres]
    · left
      simpa using hrq

/-! ## Lemmas about the emitted statement lists -/

theorem serStmtOfParam_ne_writeId (p : Parameter) :
    serStmtOfParam p ≠ some SerStmt.writeId := by
  obtain ⟨pn, pt⟩ := p
  cases pt with
  | flags => simp [serStmtOfParam]
  | normal ty flag =>
    cases flag <;> by_cases h : ty.name == "true" <;> simp [serStmtOfParam, h]

theorem writeId_not_mem_filterMap (ps : List Parameter) :
    SerStmt.writeId ∉ ps.filterMap serStmtOfParam := by
  intro h
  rcases List.mem_filterMap.mp h with ⟨p, _, hp⟩
  exact serStmtOfParam_ne_writeId p hp

theorem desStmtsAux_eq_none {d : Definition} :
    ∀ (ps : List Parameter) (p : Parameter), p ∈ ps →
      desStmtOfParam d p = none → desStmtsAux d ps = none
  | q :: ps, p, hp, hnone => by
    rcases List.mem_cons.mp hp with rfl | hp'
    · unfold desStmtsAux
      rw [hnone]
    · unfold desStmtsAux
      rw [desStmtsAux_eq_none ps p hp' hnone]
      cases desStmtOfParam d q <;> rfl

theorem desStmtsAux_isSome {d : Definition} :
    ∀ ps : List Parameter, (∀ p ∈ ps, (desStmtOfParam d p).isSome = true) →
      (desStmtsAux d ps).isSome = true
  | [], _ => rfl
  | q :: ps, h => by
    unfold desStmtsAux
    have hq := h q (List.mem_cons_self _ _)
    have htail := desStmtsAux_isSome ps fun p hp => h p (List.mem_cons_of_mem _ hp)
    cases hsq : desStmtOfParam d q with
    | none => rw [hsq] at hq; exact absurd hq (by simp)
    | some s =>
      cases hst : desStmtsAux d ps with
      | none => rw [hst] at htail; exact absurd htail (by simp)
      | some rest => rfl

/-! ## The serializer reads only the stored (normal) fields -/

theorem isPresentP_congr {V : Type} (vals vals' : Vals V) (p : Parameter)
    (h : vals' p.name = vals p.name) :
    isPresentP vals' p = isPresentP vals p := by
  obtain ⟨pn, pt⟩ := p
  simp only at h
  cases pt with
  | flags => rfl
  | normal ty flag => simp only [isPresentP, h]

theorem flagContribution_congr {V : Type} (vals vals' : Vals V) (f : String)
    (p : Parameter) (h : vals' p.name = vals p.name) :
    flagContribution vals' f p = flagContribution vals f p := by
  unfold flagContribution
  rw [isPresentP_congr vals vals' p h]

theorem foldl_or_congr (g g' : Parameter → Nat) :
    ∀ (ps : List Parameter) (a : Nat), (∀ p ∈ ps, g' p = g p) →
      ps.foldl (fun acc p => acc ||| g' p) a =
        ps.foldl (fun acc p => acc ||| g p) a
  | [], _, _ => rfl
  | p :: ps, a, h => by
    simp only [List.foldl_cons, h p (List.mem_cons_self _ _)]
    exact foldl_or_congr g g' ps _ fun q hq => h q (List.mem_cons_of_mem _ hq)

theorem flagsWord_congr {V : Type} (d : Definition) (f : String)
    (vals vals' : Vals V)
    (h : ∀ p ∈ d.params, isNormalP p = true → vals' p.name = vals p.name) :
    flagsWord d f vals' = flagsWord d f vals := by
  unfold flagsWord
  refine foldl_or_congr _ _ d.params 0 fun p hp => ?_
  by_cases hn : isNormalP p = true
  · exact flagContribution_congr vals vals' f p (h p hp hn)
  · obtain ⟨pn, pt⟩ := p
    cases pt with
    | flags => rfl
    | normal ty flag => simp [isNormalP] at hn

theorem flatMap_congr {α β : Type} (f g : α → List β) :
    ∀ l : List α, (∀ a ∈ l, f a = g a) → l.flatMap f = l.flatMap g
  | [], _ => rfl
  | a :: l, h => by
    simp only [List.flatMap_cons, h a (List.mem_cons_self _ _)]
    rw [flatMap_congr f g l fun b hb => h b (List.mem_cons_of_mem _ hb)]

theorem serializeParam_congr {V : Type} (c : Codec V) (d : Definition)
    (vals vals' : Vals V) (p : Parameter) (hp : p ∈ d.params)
    (h : ∀ q ∈ d.params, isNormalP q = true → vals' q.name = vals q.name) :
    serializeParam c d vals' p = serializeParam c d vals p := by
  obtain ⟨pn, pt⟩ := p
  cases pt with
  | flags =>
    simp only [serializeParam]
    rw [flagsWord_congr d pn vals vals' h]
  | normal ty flag =>
    have hv : vals' pn = vals pn :=
      h ⟨pn, ParameterType.normal ty flag⟩ hp (by simp [isNormalP])
    cases flag <;> simp only [serializeParam, hv]

theorem serializeDef_congr {V : Type} (c : Codec V) (d : Definition)
    (vals vals' : Vals V)
    (h : ∀ q ∈ d.params, isNormalP q = true → vals' q.name = vals q.name) :
    serializeDef c d vals' = serializeDef c d vals := by
  unfold serializeDef
  rw [flatMap_congr _ _ d.params
    fun p hp => serializeParam_congr c d vals vals' p hp h]

theorem lookup_fieldsOf {V : Type} (vals : Vals V) :
    ∀ ps : List Parameter, (ps.map Parameter.name).Nodup →
      ∀ p ∈ ps, isNormalP p = true →
        (fieldsOf ps vals).lookup p.name = some (vals p.name)
  | q :: ps, hnd, p, hp, hn => by
    have hnd' : (ps.map Parameter.name).Nodup :=
      (List.nodup_cons.mp (by simpa using hnd)).2
    rcases List.mem_cons.mp hp with rfl | hp'
    · obtain ⟨pn, pt⟩ := p
      cases pt with
      | flags => simp [isNormalP] at hn
      | normal ty flag => simp [fieldsOf, List.lookup]
    · have hne : q.name ≠ p.name := by
        intro heq
        have : q.name ∈ ps.map Parameter.name :=
          List.mem_map.mpr ⟨p, hp', heq.symm⟩
        exact (List.nodup_cons.mp (by simpa using hnd)).1 this
      have hrec := lookup_fieldsOf vals ps hnd' p hp' hn
      obtain ⟨qn, qt⟩ := q
      simp only at hne
      cases qt with
      | flags => simpa [fieldsOf] using hrec
      | normal ty flag =>
        simp only [fieldsOf, List.filterMap_cons] at hrec ⊢
        simp only [List.lookup, beq_eq_false_iff_ne.mpr (Ne.symm hne)]
        exact hrec

theorem valsOfFields_fieldsOf {V : Type} (vals : Vals V) (ps : List Parameter)
    (hnd : (ps.map Parameter.name).Nodup) (p : Parameter) (hp : p ∈ ps)
    (hn : isNormalP p = true) :
    valsOfFields (fieldsOf ps vals) p.name = vals p.name := by
  unfold valsOfFields
  rw [lookup_fieldsOf vals ps hnd p hp hn]
  rfl

/-! ## The round-trip induction -/

theorem desParams_roundtrip {V : Type} (c : Codec V) (hc : c.RoundTrip)
    (d : Definition) (vals : Vals V)
    (hwt : ∀ p ∈ d.params, wellTypedP vals p = true)
    (htrue : ∀ p ∈ d.params, trueHasFlag p = true)
    (huniq : (d.params.filterMap flagRefOf).Nodup)
    (hidx : ∀ r ∈ d.params.filterMap flagRefOf, r.2 < 32) :
    ∀ (ps : List Parameter) (acc : List String) (env : List (String × Nat))
      (rest : List Nat),
      ps.Sublist d.params →
      flagsDeclared acc ps = true →
      (∀ n ∈ acc, lookupFlag env n = flagsWord d n vals) →
      desParams c ps env (ps.flatMap (serializeParam c d vals) ++ rest) =
        some (fieldsOf ps vals, rest) := by
  intro ps
  induction ps with
  | nil =>
    intro acc env rest _ _ _
    simp [desParams, fieldsOf]
  | cons p ps ih =>
    intro acc env rest hsub hdecl henv
    have hmem : p ∈ d.params := hsub.subset (List.mem_cons_self _ _)
    have hsub' : ps.Sublist d.params :=
      (List.sublist_cons_self p ps).trans hsub
    obtain ⟨pn, pt⟩ := p
    cases pt with
    | flags =>
      have hlt : flagsWord d pn vals < 2 ^ 32 := flagsWord_lt d pn vals hidx
      simp only [flagsDeclared] at hdecl
      have henv' : ∀ n ∈ pn :: acc,
          lookupFlag ((pn, flagsWord d pn vals) :: env) n =
            flagsWord d n vals := by
        intro n hn
        by_cases hehd : n = pn
        · subst hehd
          simp [lookupFlag, List.lookup]
        · rcases List.mem_cons.mp hn with rfl | hn'
          · exact absurd rfl hehd
          · have hb : (n == pn) = false := beq_eq_false_iff_ne.mpr hehd
            simp only [lookupFlag, List.lookup, hb]
            exact henv n hn'
      have hih := ih (pn :: acc) ((pn, flagsWord d pn vals) :: env) rest
        hsub' hdecl henv'
      have hmod : flagsWord d pn vals % 4294967296 = flagsWord d pn vals :=
        Nat.mod_eq_of_lt (by simpa using hlt)
      simp [serializeParam, desParams, readU32_u32le, hmod, hih, fieldsOf]
    | normal ty flag =>
      have hwtp := hwt ⟨pn, ParameterType.normal ty flag⟩ hmem
      cases flag with
      | some fl =>
        simp only [flagsDeclared, Bool.and_eq_true] at hdecl
        obtain ⟨hfl, hdecl'⟩ := hdecl
        have hflmem : fl.name ∈ acc := by simpa using hfl
        have hlook : lookupFlag env fl.name = flagsWord d fl.name vals :=
          henv fl.name hflmem
        have hbit : (lookupFlag env fl.name &&& 2 ^ fl.index != 0) =
            isPresentP vals ⟨pn, ParameterType.normal ty (some fl)⟩ := by
          rw [hlook, and_two_pow_ne_zero]
          exact flagsWord_testBit_present d vals _ ty fl hmem rfl huniq
        have hih := ih acc env rest hsub' hdecl' henv
        by_cases hne : (ty.name == "true") = true
        · -- zero-width boolean field
          have hb : ∃ b, vals pn = FieldVal.tbool b := by
            simp only [wellTypedP, hne] at hwtp
            cases hv : vals pn <;> rw [hv] at hwtp <;> simp at hwtp
            exact ⟨_, rfl⟩
          obtain ⟨b, hb⟩ := hb
          have hpres : isPresentP vals ⟨pn, ParameterType.normal ty (some fl)⟩
              = b := by
            simp [isPresentP, hne, hb]
          rw [hpres] at hbit
          simp [serializeParam, desParams, hne, hbit, hih, fieldsOf, hb]
        · -- ordinary optional field
          rw [Bool.not_eq_true] at hne
          have ho : ∃ o, vals pn = FieldVal.opt o := by
            simp only [wellTypedP, hne] at hwtp
            cases hv : vals pn <;> rw [hv] at hwtp <;> simp at hwtp
            exact ⟨_, rfl⟩
          obtain ⟨o, ho⟩ := ho
          have hpres : isPresentP vals ⟨pn, ParameterType.normal ty (some fl)⟩
              = o.isSome := by
            simp [isPresentP, hne, ho]
          rw [hpres] at hbit
          cases o with
          | some v =>
            simp [serializeParam, desParams, hne, ho, hbit, hc ty.name v,
              hih, fieldsOf]
          | none =>
            simp [serializeParam, desParams, hne, ho, hbit, hih, fieldsOf]
      | none =>
        have hne : (ty.name == "true") = false := by
          have h := htrue ⟨pn, ParameterType.normal ty none⟩ hmem
          simpa [trueHasFlag] using h
        simp only [flagsDeclared] at hdecl
        have hih := ih acc env rest hsub' hdecl henv
        have hv : ∃ v, vals pn = FieldVal.req v := by
          simp only [wellTypedP, hne] at hwtp
          cases hvv : vals pn <;> rw [hvv] at hwtp <;> simp at hwtp
          exact ⟨_, rfl⟩
        obtain ⟨v, hv⟩ := hv
        simp [serializeParam, desParams, hne, hv, hc ty.name v, hih, fieldsOf]

/-! ## The claims -/

/-- C1: for every definition and every flags parameter in it, the
emitted serializer writes that flags word as the bitwise OR over every
normal parameter bound to it of `1 <<< bit_index` when the field is
present (the stored boolean for `"true"`-typed fields, non-emptiness of
the optional value otherwise): bit `i` of the word is set exactly when
some normal parameter bound to `(flags, i)` is present; on the concrete
two-field example bound to bits 0 and 2, first present and second
absent yields `0b001`, both present yields `0b101`. -/
theorem flags_word_or_C1 {V : Type} (c : Codec V) (d : Definition)
    (vals : Vals V) (p : Parameter) (hp : p ∈ d.params)
    (hty : p.ty = ParameterType.flags) :
    serializeParam c d vals p = u32le (flagsWord d p.name vals) ∧
    (∀ i : Nat, (flagsWord d p.name vals).testBit i =
      (d.params.any fun q =>
        (flagRefOf q == some (p.name, i)) && isPresentP vals q)) ∧
    flagsWord exC1Def "flags" exC1Vals1 = 1 ∧
    flagsWord exC1Def "flags" exC1Vals2 = 5 := by
  refine ⟨?_, fun i => testBit_flagsWord d p.name vals i, by decide, by decide⟩
  obtain ⟨pn, pt⟩ := p
  simp only at hty
  subst hty
  rfl

/-- C1 witness: the theorem applied to the flags parameter of the
concrete example definition. -/
theorem flags_word_or_C1_witness :
    serializeParam boolCodec exC1Def exC1Vals1 ⟨"flags", ParameterType.flags⟩ =
      u32le (flagsWord exC1Def "flags" exC1Vals1) ∧
    flagsWord exC1Def "flags" exC1Vals1 = 1 :=
  have h := flags_word_or_C1 boolCodec exC1Def exC1Vals1
    ⟨"flags", ParameterType.flags⟩ (by decide) rfl
  ⟨h.1, h.2.2.1⟩

/-- C2: a normal parameter of the zero-width `"true"` type is stored as
an ordinary boolean field with the parameter's name, the emitted
serializer writes no bytes for it whatever the value, and the emitted
deserializer computes the boolean as bit `bit_index` of the governing
flags word without consuming any bytes. -/
theorem true_type_zero_width_C2 {V : Type} (c : Codec V) (d : Definition)
    (p : Parameter) (ty : Ty) (fl : Flag) (hp : p ∈ d.params)
    (hty : p.ty = ParameterType.normal ty (some fl))
    (hname : ty.name = "true") :
    p.name ∈ write_struct_fields d ∧
    (∀ vals : Vals V, serializeParam c d vals p = []) ∧
    (∀ (ps : List Parameter) (env : List (String × Nat)) (buf : List Nat),
      desParams c (p :: ps) env buf =
        (desParams c ps env buf).map fun r =>
          ((p.name,
            FieldVal.tbool (lookupFlag env fl.name &&& 2 ^ fl.index != 0))
            :: r.1, r.2)) := by
  obtain ⟨pn, pt⟩ := p
  simp only at hty
  subst hty
  refine ⟨?_, ?_, ?_⟩
  · exact List.mem_filterMap.mpr
      ⟨⟨pn, ParameterType.normal ty (some fl)⟩, hp, rfl⟩
  · intro vals
    simp [serializeParam, hname]
  · intro ps env buf
    simp [desParams, hname]

/-- C2 witness: the theorem applied to the `"true"`-typed parameter of
the concrete example definition. -/
theorem true_type_zero_width_C2_witness :
    exC2Param.name ∈ write_struct_fields exC2Def ∧
    serializeParam boolCodec exC2Def exC9Vals exC2Param = [] :=
  have h := true_type_zero_width_C2 boolCodec exC2Def exC2Param
    { name := "true", generic_ref := false }
    { name := "flags", index := 1 } (by decide) rfl rfl
  ⟨h.1, h.2.1 exC9Vals⟩

/-- C3: the serializer emitted for a function-category definition
writes the definition's own 4-byte constructor id before any parameter
bytes, and the serializer emitted for a type-category definition never
writes the constructor id in-body. -/
theorem ctor_id_first_C3 {V : Type} (c : Codec V) (d : Definition)
    (vals : Vals V) :
    (d.category = Category.functions →
      write_serializable_stmts d =
        SerStmt.writeId :: d.params.filterMap serStmtOfParam ∧
      serializeDef c d vals =
        u32le d.id ++ d.params.flatMap (serializeParam c d vals)) ∧
    (d.category = Category.types →
      SerStmt.writeId ∉ write_serializable_stmts d ∧
      serializeDef c d vals = d.params.flatMap (serializeParam c d vals)) := by
  constructor
  · intro h
    constructor
    · simp [write_serializable_stmts, h]
    · simp [serializeDef, h]
  · intro h
    constructor
    · simp only [write_serializable_stmts, h]
      simpa using writeId_not_mem_filterMap d.params
    · simp [serializeDef, h]

/-- C3 witness: the theorem applied to a concrete function and a
concrete type definition. -/
theorem ctor_id_first_C3_witness :
    write_serializable_stmts exFnDef =
      SerStmt.writeId :: exFnDef.params.filterMap serStmtOfParam ∧
    SerStmt.writeId ∉ write_serializable_stmts exC1Def :=
  ⟨((ctor_id_first_C3 boolCodec exFnDef exC9Vals).1 rfl).1,
   ((ctor_id_first_C3 boolCodec exC1Def exC9Vals).2 rfl).1⟩

/-- C4: a flags parameter no normal parameter references is still
written (necessarily as 0) and still read: the emitted serializer
writes the 4-byte encoding of 0 for it, the emitted deserializer binds
the word to a discarded name but still consumes exactly 4 bytes, and
the flags word always occupies 4 bytes whether used or unused. -/
theorem unused_flag_C4 {V : Type} (c : Codec V) (d : Definition)
    (vals : Vals V) (p : Parameter) (hp : p ∈ d.params)
    (hty : p.ty = ParameterType.flags) (hu : is_unused_flag d p = true) :
    serializeParam c d vals p = u32le 0 ∧
    (serializeParam c d vals p).length = 4 ∧
    desStmtOfParam d p = some (DesStmt.readFlags p.name true) ∧
    (∀ (ps : List Parameter) (env : List (String × Nat))
       (b0 b1 b2 b3 : Nat) (buf : List Nat),
      desParams c (p :: ps) env (b0 :: b1 :: b2 :: b3 :: buf) =
        desParams c ps
          ((p.name, b0 + 256 * b1 + 65536 * b2 + 16777216 * b3) :: env)
          buf) ∧
    (∀ (d' : Definition) (vals' : Vals V) (q : Parameter),
      q.ty = ParameterType.flags →
        (serializeParam c d' vals' q).length = 4) := by
  obtain ⟨pn, pt⟩ := p
  simp only at hty hu
  subst hty
  have hz : flagsWord d pn vals = 0 :=
    flagsWord_unused d ⟨pn, ParameterType.flags⟩ vals hu
  refine ⟨?_, rfl, ?_, ?_, ?_⟩
  · show u32le (flagsWord d pn vals) = u32le 0
    rw [hz]
  · simp [desStmtOfParam, hu]
  · intro ps env b0 b1 b2 b3 buf
    simp [desParams, readU32]
  · intro d' vals' q hq
    obtain ⟨qn, qt⟩ := q
    simp only at hq
    subst hq
    rfl

/-- C4 witness: the theorem applied to the unused flags word of the
concrete example definition. -/
theorem unused_flag_C4_witness :
    serializeParam boolCodec exC4Def exC9Vals exC4Param = u32le 0 ∧
    desStmtOfParam exC4Def exC4Param =
      some (DesStmt.readFlags "flags" true) :=
  have h := unused_flag_C4 boolCodec exC4Def exC9Vals exC4Param
    (by decide) rfl (by decide)
  ⟨h.1, h.2.2.1⟩

/-- C5: `write_definition` emits a deserializer exactly when the
definition's category is `Types`, or the deserializable-functions
option is on, or the definition is named `sendMessage`; in particular
the function `sendMessage` gets one with the option off. -/
theorem deserializer_gate_C5 (cfg : Config) (d : Definition) :
    (Part.deserializable ∈ write_definition_parts cfg d ↔
      (d.category = Category.types ∨ cfg.deserializable_functions = true ∨
        d.name = "sendMessage")) ∧
    Part.deserializable ∈
      write_definition_parts
        { impl_debug := false, impl_serde := false,
          deserializable_functions := false, impl_from_enum := false }
        sendMessageDef := by
  refine ⟨?_, by decide⟩
  by_cases hsm : d.name = "sendMessage"
  · cases hcat : d.category <;>
      cases hdf : cfg.deserializable_functions <;>
      cases hfe : cfg.impl_from_enum <;>
      simp [write_definition_parts, hcat, hdf, hfe, hsm]
  · have hsm' : (d.name == "sendMessage") = false :=
      beq_eq_false_iff_ne.mpr hsm
    cases hcat : d.category <;>
      cases hdf : cfg.deserializable_functions <;>
      cases hfe : cfg.impl_from_enum <;>
      simp [write_definition_parts, hcat, hdf, hfe, hsm, hsm']

/-- C6: with variant conversions enabled, a definition that is the only
inhabitant of its abstract type gets an infallible `From` (degenerating
to a unit construction when it has no fields); one of several
inhabitants gets a fallible `TryFrom` with `Error = ()` whose
non-matching arms return `Err(())`; and a recursive definition's
payload is dereferenced out of its indirection. -/
theorem variant_conversion_C6 (m : Metadata) (d : Definition) :
    ((m.defs_with_type d.ty).length = 1 →
      (write_impl_from m d).infallible = true ∧
      (d.params = [] → (write_impl_from m d).unitConstruction = true)) ∧
    (1 < (m.defs_with_type d.ty).length →
      (write_impl_from m d).infallible = false ∧
      (write_impl_from m d).errorIsUnit = true ∧
      (write_impl_from m d).otherVariantsErrUnit = true ∧
      (write_impl_from m d).matchedVariant = d.name) ∧
    (m.is_recursive_def d = true →
      (write_impl_from m d).derefPayload = true) := by
  refine ⟨fun h => ⟨?_, fun hp => ?_⟩, fun h => ?_, fun h => ?_⟩
  · simp [write_impl_from, h]
  · simp [write_impl_from, hp]
  · have hne : (m.defs_with_type d.ty).length ≠ 1 := by omega
    refine ⟨?_, ?_, ?_, rfl⟩ <;> simp [write_impl_from, hne]
  · simp [write_impl_from, h]

/-- C6 witness: the theorem applied under metadata with one inhabitant
(and a recursive definition) and metadata with two inhabitants. -/
theorem variant_conversion_C6_witness :
    (write_impl_from exMeta1 exC1Def).infallible = true ∧
    (write_impl_from exMeta2 exC1Def).infallible = false ∧
    (write_impl_from exMeta2 exC1Def).otherVariantsErrUnit = true ∧
    (write_impl_from exMeta1 exC1Def).derefPayload = true :=
  ⟨((variant_conversion_C6 exMeta1 exC1Def).1 (by decide)).1,
   ((variant_conversion_C6 exMeta2 exC1Def).2.1 (by decide)).1,
   ((variant_conversion_C6 exMeta2 exC1Def).2.1 (by decide)).2.2.1,
   (variant_conversion_C6 exMeta1 exC1Def).2.2 rfl⟩

/-- C7: an RPC binding is emitted for function-category definitions and
only those; its associated response type is the definition's `ty`,
composed through the generic parameter's own associated response type
when `ty` is a generic reference. -/
theorem rpc_binding_C7 (cfg : Config) (d : Definition) :
    (Part.rpc ∈ write_definition_parts cfg d ↔
      d.category = Category.functions) ∧
    (write_rpc d).returnTy = d.ty ∧
    (write_rpc d).composedReturn = d.ty.generic_ref := by
  refine ⟨?_, rfl, rfl⟩
  by_cases hsm : d.name = "sendMessage"
  · cases hcat : d.category <;>
      cases hdf : cfg.deserializable_functions <;>
      cases hfe : cfg.impl_from_enum <;>
      simp [write_definition_parts, hcat, hdf, hfe, hsm]
  · have hsm' : (d.name == "sendMessage") = false :=
      beq_eq_false_iff_ne.mpr hsm
    cases hcat : d.category <;>
      cases hdf : cfg.deserializable_functions <;>
      cases hfe : cfg.impl_from_enum <;>
      simp [write_definition_parts, hcat, hdf, hfe, hsm, hsm']

/-- C8: the assembler emits namespace groups in lexicographically
sorted key order; within a group the definitions keep the input order
(the group is a sublist of the input); a definition is emitted for key
`k` exactly when it belongs to the requested category and namespace and
— being a function, or not ignorable — survives the filter, so
function-category definitions are never filtered out. -/
theorem assembler_C8 (ignorable : Ty → Bool) (cat : Category)
    (defs : List Definition) :
    List.Sorted (· ≤ ·)
      ((write_category_mod ignorable cat defs).map Prod.fst) ∧
    ∀ (k : String) (group : List Definition),
      (k, group) ∈ write_category_mod ignorable cat defs →
        group.Sublist defs ∧
        ∀ e : Definition, e ∈ group ↔
          (e ∈ defs ∧ e.category = cat ∧ e.ns = k ∧
            (e.category = Category.functions ∨ ignorable e.ty = false)) := by
  constructor
  · have hmap : (write_category_mod ignorable cat defs).map Prod.fst =
        sortedKeys defs cat := by
      simp [write_category_mod, Function.comp_def]
    rw [hmap]
    exact List.sorted_insertionSort _ _
  · intro k group hk
    rcases List.mem_map.mp hk with ⟨k', _, heq⟩
    rw [Prod.mk.injEq] at heq
    obtain ⟨rfl, rfl⟩ := heq
    constructor
    · exact (List.filter_sublist _).trans (List.filter_sublist _)
    · intro e
      simp only [group_by_ns, List.mem_filter, Bool.and_eq_true, beq_iff_eq,
        Bool.or_eq_true, Bool.not_eq_true']
      tauto

/-- C8 witness: the theorem applied to the concrete two-namespace
input, at the `alpha` group (where the ignorable definition was
filtered out). -/
theorem assembler_C8_witness :
    [exDaOne].Sublist exC8Defs ∧
    (exDaIgn ∈ [exDaOne] ↔
      (exDaIgn ∈ exC8Defs ∧ exDaIgn.category = Category.types ∧
        exDaIgn.ns = "alpha" ∧
        (exDaIgn.category = Category.functions ∨
          exC8Ign exDaIgn.ty = false))) :=
  have h := (assembler_C8 exC8Ign Category.types exC8Defs).2 "alpha"
    [exDaOne]
    (by simp +decide [write_category_mod, sortedKeys, group_by_ns, exC8Defs,
      exDzOne, exDaOne, exDaIgn, exC8Ign, List.insertionSort,
      List.orderedInsert])
  ⟨h.1, h.2 exDaIgn⟩

/-- C9: for a type-category definition satisfying the input invariants
(flags declared before use, distinct parameter names, distinct bound
bits below 32, `"true"` fields always gated, well-typed fields) and a
lawful payload codec, deserializing the serialized bytes returns
exactly the original field values and leaves the trailing bytes, and
re-serializing the reconstructed value reproduces the original
bytes. -/
theorem roundtrip_C9 {V : Type} (c : Codec V) (hc : c.RoundTrip)
    (d : Definition) (vals : Vals V) (rest : List Nat)
    (hcat : d.category = Category.types)
    (hwt : ∀ p ∈ d.params, wellTypedP vals p = true)
    (htrue : ∀ p ∈ d.params, trueHasFlag p = true)
    (huniq : (d.params.filterMap flagRefOf).Nodup)
    (hidx : ∀ r ∈ d.params.filterMap flagRefOf, r.2 < 32)
    (hdecl : flagsDeclared [] d.params = true)
    (hnames : (d.params.map Parameter.name).Nodup) :
    deserializeDef c d (serializeDef c d vals ++ rest) =
      some (fieldsOf d.params vals, rest) ∧
    serializeDef c d (valsOfFields (fieldsOf d.params vals)) =
      serializeDef c d vals := by
  constructor
  · have hser : serializeDef c d vals =
        d.params.flatMap (serializeParam c d vals) := by
      simp [serializeDef, hcat]
    rw [hser]
    exact desParams_roundtrip c hc d vals hwt htrue huniq hidx d.params [] []
      rest (List.Sublist.refl _) hdecl
      (fun n hn => absurd hn (List.not_mem_nil n))
  · exact serializeDef_congr c d vals _ fun q hq hnq =>
      valsOfFields_fieldsOf vals d.params hnames q hq hnq

/-- C9 witness: the round trip evaluated on the concrete example
definition (gated payload present, `"true"` flag set, required
payload) with a concrete lawful codec. -/
theorem roundtrip_C9_witness :
    deserializeDef boolCodec exC9Def
        (serializeDef boolCodec exC9Def exC9Vals ++ [9]) =
      some (fieldsOf exC9Def.params exC9Vals, [9]) ∧
    serializeDef boolCodec exC9Def
        (valsOfFields (fieldsOf exC9Def.params exC9Vals)) =
      serializeDef boolCodec exC9Def exC9Vals :=
  roundtrip_C9 boolCodec boolCodec_roundTrip exC9Def exC9Vals [9] rfl
    (by decide) (by decide) (by decide) (by decide) (by decide) (by decide)

/-- C10: on a definition violating the input invariant — a
`"true"`-typed normal parameter with no flag reference —
`write_deserializable` panics (models as `none`) instead of returning
an error through its result type, while `write_serializable` succeeds,
emitting no statement and no bytes for that parameter; under the
precondition that every `"true"`-typed parameter carries a flag
reference the panic branch is unreachable. -/
theorem true_without_flag_C10 {V : Type} (c : Codec V) (d : Definition)
    (p : Parameter) (ty : Ty) (hp : p ∈ d.params)
    (hty : p.ty = ParameterType.normal ty none) (hname : ty.name = "true") :
    write_deserializable_stmts d = none ∧
    serStmtOfParam p = none ∧
    (∀ vals : Vals V, serializeParam c d vals p = []) ∧
    (∀ d' : Definition, (∀ q ∈ d'.params, trueHasFlag q = true) →
      (write_deserializable_stmts d').isSome = true) := by
  refine ⟨?_, ?_, ?_, ?_⟩
  · refine desStmtsAux_eq_none d.params p hp ?_
    obtain ⟨pn, pt⟩ := p
    simp only at hty
    subst hty
    simp [desStmtOfParam, hname]
  · obtain ⟨pn, pt⟩ := p
    simp only at hty
    subst hty
    simp [serStmtOfParam, hname]
  · intro vals
    obtain ⟨pn, pt⟩ := p
    simp only at hty
    subst hty
    simp [serializeParam, hname]
  · intro d' hd'
    refine desStmtsAux_isSome d'.params fun q hq => ?_
    have hqf := hd' q hq
    obtain ⟨qn, qt⟩ := q
    cases qt with
    | flags => simp [desStmtOfParam]
    | normal t flag =>
      cases flag with
      | some fl =>
        by_cases h : (t.name == "true") = true <;> simp [desStmtOfParam, h]
      | none =>
        have hne : (t.name == "true") = false := by
          simpa [trueHasFlag] using hqf
        simp [desStmtOfParam, hne]

/-- C10 witness: the generator panic evaluated on the concrete
invariant-violating definition, and its absence on a well-formed
one. -/
theorem true_without_flag_C10_witness :
    write_deserializable_stmts exBadDef = none ∧
    (write_deserializable_stmts exC2Def).isSome = true :=
  have h := true_without_flag_C10 boolCodec exBadDef exBadParam
    { name := "true", generic_ref := false } (by decide) rfl rfl
  ⟨h.1, h.2.2.2 exC2Def (by decide)⟩

end TlGen
